import Mathlib

/-!
Verification of the Chef-Exchange virtual stock-market engine.

The definitions below are a shallow embedding of the Python sources
(`stock_manager.py`, `decay.py`, `config.py`, `commands.py`,
`ui_components.py`).  Prices are modelled as rationals, python dicts keyed
by symbol as total functions `String → _` together with an explicit list of
live symbols (the key set), and every random draw is passed in explicitly
as a parameter.  Persistence and logging side effects are dropped; the
in-memory state transition of each operation is kept exactly as written.
-/

namespace ChefExchange

/-- Round-half-to-even on a rational, the rounding mode of Python's
builtin `round` used throughout the source. -/
def rhe (x : ℚ) : ℤ :=
  if x - ⌊x⌋ < 1/2 then ⌊x⌋
  else if 1/2 < x - ⌊x⌋ then ⌊x⌋ + 1
  else if ⌊x⌋ % 2 = 0 then ⌊x⌋ else ⌊x⌋ + 1

/-- Embedding of Python's `round(x, 2)`: round to two decimal places. -/
def round2 (x : ℚ) : ℚ := (rhe (x * 100) : ℚ) / 100

/-! Configuration constants from `config.py`. -/

/-- Flat fee subtracted from the current price on a sale (`config.SELLING_FEE`). -/
def SELLING_FEE : ℚ := 7

/-- The sixteen listed symbols (`config.STOCK_SYMBOLS`). -/
def STOCK_SYMBOLS : List String :=
  ["$SHNE", "$KORD", "$SPLY", "$KID", "$DREW", "$TRAX", "$DAR",
   "$TOST", "$TAL", "$GAGE", "$SEVK", "$NINJ", "$YOLO",
   "$LOOK", "$WAMR", "$RDGE"]

/-- Lower bound of the new-listing price band (`config.NEW_STOCK_MIN_PRICE`). -/
def NEW_STOCK_MIN_PRICE : ℚ := 80

/-- Upper bound of the new-listing price band (`config.NEW_STOCK_MAX_PRICE`). -/
def NEW_STOCK_MAX_PRICE : ℚ := 90

/-- Lower bound of a tick delta (`config.STOCK_PRICE_MIN_CHANGE`). -/
def STOCK_PRICE_MIN_CHANGE : ℚ := -3

/-- Upper bound of a tick delta (`config.STOCK_PRICE_MAX_CHANGE`). -/
def STOCK_PRICE_MAX_CHANGE : ℚ := 3

/-- Lower bound of a buy delta (`config.STOCK_BUY_MIN_CHANGE`). -/
def STOCK_BUY_MIN_CHANGE : ℚ := 3

/-- Upper bound of a buy delta (`config.STOCK_BUY_MAX_CHANGE`). -/
def STOCK_BUY_MAX_CHANGE : ℚ := 9

/-- Lower bound of a sell delta (`config.STOCK_SELL_MIN_CHANGE`). -/
def STOCK_SELL_MIN_CHANGE : ℚ := 3

/-- Upper bound of a sell delta (`config.STOCK_SELL_MAX_CHANGE`). -/
def STOCK_SELL_MAX_CHANGE : ℚ := 9

/-- The in-memory state of `StockManager`: `symbols` is the common key set
of the `stock_prices` and `price_history` dicts; `prices` and `history` are
the dicts themselves, modelled as total functions. -/
structure StockState where
  symbols : List String
  prices : String → ℚ
  history : String → List ℚ

/-- The two-line mutation pattern repeated at every price commit in the
source: `stock_prices[symbol] = p` immediately followed by
`price_history[symbol].append(p)` with the same already-rounded value. -/
def commit (s : StockState) (symbol : String) (p : ℚ) : StockState :=
  { s with
    prices := fun t => if t = symbol then p else s.prices t
    history := fun t => if t = symbol then s.history t ++ [p] else s.history t }

/-- Modelled from the spec: `StockManager.get_all_symbols` is called by
`decay.py` and `commands.py` but its body is not in `src/`; per the spec the
ListingRegistry "tracks the set of live symbols", i.e. the key set of the
price store. -/
def get_all_symbols (s : StockState) : List String := s.symbols

/-- Loop body of `StockManager.update_prices`: draw a delta, floor the sum
at 1, round to 2 decimals, store and append. -/
def tick_step (draws : String → ℚ) (st : StockState) (symbol : String) : StockState :=
  let change := draws symbol
  let new_price := max 1 (st.prices symbol + change)
  commit st symbol (round2 new_price)

/-- Embedding of `StockManager.update_prices`: one pass over
`config.STOCK_SYMBOLS`, each symbol updated by `tick_step` with its own
draw. -/
def update_prices (draws : String → ℚ) (s : StockState) : StockState :=
  STOCK_SYMBOLS.foldl (tick_step draws) s

/-- Embedding of `StockManager.buy_stock`: returns the pre-mutation price
and the state after the positive-biased delta is committed. -/
def buy_stock (change : ℚ) (s : StockState) (symbol : String) : ℚ × StockState :=
  let price := s.prices symbol
  let new_price := max 1 (s.prices symbol + change)
  (price, commit s symbol (round2 new_price))

/-- Embedding of `StockManager.sell_stock`: returns the pre-mutation price
minus the flat fee, and the state after the negative-biased delta is
committed to the pre-fee price. -/
def sell_stock (change : ℚ) (s : StockState) (symbol : String) : ℚ × StockState :=
  let price := s.prices symbol - SELLING_FEE
  let new_price := max 1 (s.prices symbol - change)
  (price, commit s symbol (round2 new_price))

/-- Price-mutation core of the `admin_add` command (`commands.py`): add
`amount_value` to the current price, abort with `none` when the result
would be ≤ 0, otherwise commit the rounded value. -/
def admin_add (s : StockState) (symbol : String) (amount_value : ℚ) : Option StockState :=
  if symbol ∈ get_all_symbols s then
    let current_price := s.prices symbol
    let new_price := current_price + amount_value
    if new_price ≤ 0 then none
    else some (commit s symbol (round2 new_price))
  else none

/-- Price-mutation core of the `admin_sub` command (`commands.py`):
subtract `amount_value` from the current price, abort with `none` when the
result would be ≤ 0, otherwise commit the rounded value. -/
def admin_sub (s : StockState) (symbol : String) (amount_value : ℚ) : Option StockState :=
  if symbol ∈ get_all_symbols s then
    let current_price := s.prices symbol
    let new_price := current_price - amount_value
    if new_price ≤ 0 then none
    else some (commit s symbol (round2 new_price))
  else none

/-- Embedding of `StockManager.generate_new_stocks`: each configured symbol
gets a fresh price `round(uniform(NEW_STOCK_MIN_PRICE, NEW_STOCK_MAX_PRICE), 2)`
(the draw is the parameter) and a one-element history holding that price. -/
def generate_new_stocks (draws : String → ℚ) : StockState :=
  { symbols := STOCK_SYMBOLS
    prices := fun symbol => round2 (draws symbol)
    history := fun symbol => [round2 (draws symbol)] }

/-- Outcome of reading the persisted snapshot in `StockManager.load_stocks`:
`readError` covers the caught `JSONDecodeError`/`IOError`/`FileNotFoundError`
(missing, unreadable or unparseable file), `badShape` a parsed value that is
not a dict with the `STOCK_PRICES` and `PRICE_HISTORY` fields, and `ok` a
well-formed snapshot. -/
inductive LoadResult where
  | readError : LoadResult
  | badShape : LoadResult
  | ok : StockState → LoadResult

/-- Embedding of `StockManager.load_stocks`: a well-formed snapshot is
adopted as-is; every failure path falls through to
`generate_new_stocks`. -/
def load_stocks (input : LoadResult) (draws : String → ℚ) : StockState :=
  match input with
  | .ok data => data
  | .readError => generate_new_stocks draws
  | .badShape => generate_new_stocks draws

/-- Holdings data loaded from `user_data.json`: per user, the `inventory`
mapping of symbol to share quantity, as read by
`DecayManager._calculate_stock_popularity`. -/
abbrev UserData : Type := List (String × List (String × Int))

/-- Total shares held across all users for one symbol: the per-symbol total
accumulated by the loop in `_calculate_stock_popularity`, which adds
`quantity` for every inventory entry with this symbol and a positive
quantity. -/
def total_shares (ud : UserData) (symbol : String) : Int :=
  (ud.map (fun u =>
    ((u.2.filter (fun e => decide (e.1 = symbol) && decide (0 < e.2))).map
      (fun e => e.2)).sum)).sum

/-- Tie-break term of `_calculate_stock_popularity`:
`sum(ord(c) / 10000.0 for c in symbol)`. -/
def symbol_value (symbol : String) : ℚ :=
  (symbol.data.map (fun c => (c.toNat : ℚ) / 10000)).sum

/-- Popularity score of one symbol: total shares held plus the tie-break
term, as computed by `_calculate_stock_popularity`. -/
def popularity_score (ud : UserData) (symbol : String) : ℚ :=
  (total_shares ud symbol : ℚ) + symbol_value symbol

/-- Embedding of `DecayManager._calculate_stock_popularity` (the leading
underscore is dropped): the association list of every listed symbol with
its popularity score, in listing order. -/
def calculate_stock_popularity (ud : UserData) (all_symbols : List String) :
    List (String × ℚ) :=
  all_symbols.map (fun symbol => (symbol, popularity_score ud symbol))

/-- Comparison used by `sorted(stock_popularity.items(), key=lambda x: x[1])`:
order by score only. -/
def score_le (a b : String × ℚ) : Bool := decide (a.2 ≤ b.2)

/-- The popularity-sorted listing: Python's stable `sorted` is modelled by
the stable `List.mergeSort`. -/
def sorted_by_popularity (ud : UserData) (all_symbols : List String) :
    List (String × ℚ) :=
  (calculate_stock_popularity ud all_symbols).mergeSort score_le

/-- Loop body of `DecayManager.apply_stock_decay`: if the symbol is still a
key of the price store, commit
`round(max(0.01, current * (1 - percent/100)), 2)` and record the symbol as
decayed; otherwise skip it. -/
def decay_step (percent : ℚ) (acc : List String × StockState) (p : String × ℚ) :
    List String × StockState :=
  if p.1 ∈ acc.2.symbols then
    let current_price := acc.2.prices p.1
    let new_price := current_price * (1 - percent / 100)
    (acc.1 ++ [p.1], commit acc.2 p.1 (round2 (max (1/100) new_price)))
  else acc

/-- Embedding of `DecayManager.apply_stock_decay`.  The decay threshold and
percent are parameters: they are read from `config.STOCK_DECAY_THRESHOLD`
and `config.STOCK_DECAY_PERCENT`, which the `config.py` in `src/` does not
define (the spec lists them among the recognized configuration options).
Returns the list of decayed symbols together with the final state. -/
def apply_stock_decay (threshold : ℕ) (percent : ℚ) (ud : UserData)
    (s : StockState) : List String × StockState :=
  let total_stocks := (get_all_symbols s).length
  if total_stocks ≤ threshold then ([], s)
  else
    let excess_stocks := total_stocks - threshold
    let sorted_stocks := sorted_by_popularity ud (get_all_symbols s)
    let stocks_to_decay := sorted_stocks.take excess_stocks
    stocks_to_decay.foldl (decay_step percent) ([], s)

/-- Embedding of `DecayManager.get_decay_risk_stocks`: the `excess` symbols
that will decay at 100% risk plus up to 3 buffer symbols with risk
`100 - buffer_position * 75 / buffer`. -/
def get_decay_risk_stocks (threshold : ℕ) (ud : UserData) (s : StockState) :
    List (String × ℚ) :=
  let total_stocks := (get_all_symbols s).length
  if total_stocks ≤ threshold then []
  else
    let excess_stocks := total_stocks - threshold
    let sorted_stocks := sorted_by_popularity ud (get_all_symbols s)
    let buffer := min 3 (sorted_stocks.length - excess_stocks)
    let risk_count := excess_stocks + buffer
    (sorted_stocks.take risk_count).enum.map (fun ip =>
      (ip.2.1,
        if ip.1 < excess_stocks then (100 : ℚ)
        else 100 - (if 0 < buffer then
          ((ip.1 - excess_stocks : ℕ) : ℚ) * 75 / (buffer : ℚ) else 0)))

/-- Modelled from the spec: `UserManager.update_balance`, called by
`ChartView.sell_stock` but not in `src/`, performs the spec's "simple
additive transfers" on the balance. -/
def update_balance (balance amount : ℚ) : ℚ := balance + amount

/-- Balance-and-price core of `ChartView.sell_stock` (`ui_components.py`):
when the user owns a share, the executed price returned by
`StockManager.sell_stock` — fee already subtracted — is credited to the
balance; otherwise nothing changes.  The inventory update is elided. -/
def chart_sell (owns : Bool) (change : ℚ) (balance : ℚ) (s : StockState)
    (symbol : String) : ℚ × StockState :=
  if owns then
    let final_price := (sell_stock change s symbol).1
    (update_balance balance final_price, (sell_stock change s symbol).2)
  else (balance, s)

/-- The stated invariant of the price store: for every live symbol the
current price is the last element of its history. -/
def Consistent (s : StockState) : Prop :=
  ∀ symbol ∈ s.symbols, (s.history symbol).getLast? = some (s.prices symbol)

/-- History is append-only between two states: every symbol's new history
extends the old one. -/
def AppendOnly (s s' : StockState) : Prop :=
  ∀ symbol, ∃ t, s'.history symbol = s.history symbol ++ t

/-- Concrete test state used by the spec's sell scenario and by witnesses:
every symbol is priced at 50.00 with a one-element history. -/
def demo_state : StockState :=
  { symbols := ["$GAGE"]
    prices := fun _ => 50
    history := fun _ => [50] }

/-- Concrete test state with every symbol priced at 3.00 (below the selling
fee) and a one-element history. -/
def cheap_state : StockState :=
  { symbols := ["$GAGE"]
    prices := fun _ => 3
    history := fun _ => [3] }

/-- A three-symbol state used by decay witnesses. -/
def trio_state : StockState :=
  { symbols := ["$KID", "$TAL", "$DAR"]
    prices := fun _ => 50
    history := fun _ => [50] }

/-- Concrete tick draw used by witnesses: every symbol moves by +2. -/
def demo_draws : String → ℚ := fun _ => 2

/-- Concrete new-listing draw used by witnesses: every symbol opens at 85. -/
def ipo_draws : String → ℚ := fun _ => 85

/-- Concrete holdings data used by decay witnesses: one user holding two
shares of `$TAL` and one of `$KID`. -/
def demo_user_data : UserData :=
  [("user1", [("$TAL", 2), ("$KID", 1)])]

/-! Basic facts about the rounding helper. -/

theorem floor_le_rhe (x : ℚ) : ⌊x⌋ ≤ rhe x := by
  unfold rhe
  split_ifs <;> omega

theorem rhe_le_floor_add_one (x : ℚ) : rhe x ≤ ⌊x⌋ + 1 := by
  unfold rhe
  split_ifs <;> omega

theorem rhe_intCast (n : ℤ) : rhe (n : ℚ) = n := by
  unfold rhe
  rw [Int.floor_intCast]
  norm_num

theorem le_rhe (n : ℤ) (x : ℚ) (h : (n : ℚ) ≤ x) : n ≤ rhe x :=
  le_trans (Int.le_floor.mpr h) (floor_le_rhe x)

theorem rhe_le (n : ℤ) (x : ℚ) (h : x ≤ (n : ℚ)) : rhe x ≤ n := by
  have hf : ⌊x⌋ ≤ n := by
    have := Int.floor_le_floor h
    rwa [Int.floor_intCast] at this
  rcases lt_or_eq_of_le hf with hlt | heq
  · exact le_trans (rhe_le_floor_add_one x) (by omega)
  · have hxn : x = (n : ℚ) := by
      refine le_antisymm h ?_
      calc (n : ℚ) = (⌊x⌋ : ℚ) := by exact_mod_cast heq.symm
        _ ≤ x := Int.floor_le x
    rw [hxn, rhe_intCast]

theorem round2_le_div (n : ℤ) (x : ℚ) (h : x ≤ (n : ℚ) / 100) :
    round2 x ≤ (n : ℚ) / 100 := by
  unfold round2
  have h100 : x * 100 ≤ (n : ℚ) := by linarith
  have hr : (rhe (x * 100) : ℚ) ≤ (n : ℚ) := by exact_mod_cast rhe_le n (x * 100) h100
  linarith

theorem div_le_round2 (n : ℤ) (x : ℚ) (h : (n : ℚ) / 100 ≤ x) :
    (n : ℚ) / 100 ≤ round2 x := by
  unfold round2
  have h100 : (n : ℚ) ≤ x * 100 := by linarith
  have hr : (n : ℚ) ≤ (rhe (x * 100) : ℚ) := by exact_mod_cast le_rhe n (x * 100) h100
  linarith

theorem one_le_round2 (x : ℚ) (h : 1 ≤ x) : 1 ≤ round2 x := by
  have h' : ((100 : ℤ) : ℚ) / 100 ≤ x := by push_cast; linarith
  have := div_le_round2 100 x h'
  push_cast at this
  linarith

theorem round2_intCast (n : ℤ) : round2 (n : ℚ) = n := by
  unfold round2
  have hc : (n : ℚ) * 100 = ((n * 100 : ℤ) : ℚ) := by push_cast; ring
  rw [hc, rhe_intCast]
  push_cast
  rw [mul_div_assoc]
  norm_num

/-! Facts about `commit`, the single price-and-history mutation step. -/

theorem commit_symbols (s : StockState) (symbol : String) (p : ℚ) :
    (commit s symbol p).symbols = s.symbols := rfl

theorem commit_prices_self (s : StockState) (symbol : String) (p : ℚ) :
    (commit s symbol p).prices symbol = p := by
  simp [commit]

theorem commit_prices_other (s : StockState) (symbol t : String) (p : ℚ)
    (h : t ≠ symbol) : (commit s symbol p).prices t = s.prices t := by
  simp [commit, h]

theorem commit_history_self (s : StockState) (symbol : String) (p : ℚ) :
    (commit s symbol p).history symbol = s.history symbol ++ [p] := by
  simp [commit]

theorem commit_history_other (s : StockState) (symbol t : String) (p : ℚ)
    (h : t ≠ symbol) : (commit s symbol p).history t = s.history t := by
  simp [commit, h]

theorem consistent_commit {s : StockState} (symbol : String) (p : ℚ)
    (h : Consistent s) : Consistent (commit s symbol p) := by
  intro t ht
  rw [commit_symbols] at ht
  by_cases hts : t = symbol
  · subst hts
    rw [commit_history_self, commit_prices_self, List.getLast?_concat]
  · rw [commit_history_other _ _ _ _ hts, commit_prices_other _ _ _ _ hts]
    exact h t ht

theorem appendOnly_refl (s : StockState) : AppendOnly s s :=
  fun _ => ⟨[], (List.append_nil _).symm⟩

theorem appendOnly_trans {s s' s'' : StockState} (h1 : AppendOnly s s')
    (h2 : AppendOnly s' s'') : AppendOnly s s'' := by
  intro symbol
  obtain ⟨t1, ht1⟩ := h1 symbol
  obtain ⟨t2, ht2⟩ := h2 symbol
  exact ⟨t1 ++ t2, by rw [ht2, ht1, List.append_assoc]⟩

theorem appendOnly_commit (s : StockState) (symbol : String) (p : ℚ) :
    AppendOnly s (commit s symbol p) := by
  intro t
  by_cases hts : t = symbol
  · subst hts
    exact ⟨[p], commit_history_self s t p⟩
  · exact ⟨[], by rw [commit_history_other _ _ _ _ hts, List.append_nil]⟩

/-! Facts about the `update_prices` loop. -/

theorem tick_step_eq (draws : String → ℚ) (s : StockState) (symbol : String) :
    tick_step draws s symbol
      = commit s symbol (round2 (max 1 (s.prices symbol + draws symbol))) := rfl

theorem foldl_tick_untouched (draws : String → ℚ) (l : List String) :
    ∀ (s : StockState) (symbol : String), symbol ∉ l →
      (l.foldl (tick_step draws) s).prices symbol = s.prices symbol ∧
      (l.foldl (tick_step draws) s).history symbol = s.history symbol := by
  induction l with
  | nil => intro s symbol _; exact ⟨rfl, rfl⟩
  | cons a t ih =>
    intro s symbol h
    have hna : symbol ≠ a := fun hh => h (hh ▸ List.mem_cons_self a t)
    have hnt : symbol ∉ t := fun hh => h (List.mem_cons_of_mem a hh)
    rw [List.foldl_cons]
    obtain ⟨hp, hh⟩ := ih (tick_step draws s a) symbol hnt
    refine ⟨?_, ?_⟩
    · rw [hp]
      exact commit_prices_other _ _ _ _ hna
    · rw [hh]
      exact commit_history_other _ _ _ _ hna

theorem foldl_tick_spec (draws : String → ℚ) (l : List String) (hl : l.Nodup) :
    ∀ (s : StockState) (symbol : String), symbol ∈ l →
      (l.foldl (tick_step draws) s).prices symbol
          = round2 (max 1 (s.prices symbol + draws symbol)) ∧
      (l.foldl (tick_step draws) s).history symbol
          = s.history symbol ++ [round2 (max 1 (s.prices symbol + draws symbol))] := by
  induction l with
  | nil => intro s symbol h; exact absurd h (List.not_mem_nil symbol)
  | cons a t ih =>
    intro s symbol h
    rw [List.foldl_cons]
    rcases List.mem_cons.mp h with rfl | hmem
    · have hat : symbol ∉ t := (List.nodup_cons.mp hl).1
      obtain ⟨hp, hh⟩ := foldl_tick_untouched draws t (tick_step draws s symbol) symbol hat
      refine ⟨?_, ?_⟩
      · rw [hp]
        exact commit_prices_self _ _ _
      · rw [hh]
        exact commit_history_self _ _ _
    · have hat : a ∉ t := (List.nodup_cons.mp hl).1
      have hna : symbol ≠ a := fun hh => hat (hh ▸ hmem)
      obtain ⟨hp, hh⟩ := ih (List.nodup_cons.mp hl).2 (tick_step draws s a) symbol hmem
      refine ⟨?_, ?_⟩
      · rw [hp, tick_step_eq, commit_prices_other _ _ _ _ hna]
      · rw [hh, tick_step_eq, commit_prices_other _ _ _ _ hna,
          commit_history_other _ _ _ _ hna]

theorem foldl_tick_consistent (draws : String → ℚ) (l : List String) :
    ∀ (s : StockState), Consistent s → Consistent (l.foldl (tick_step draws) s) := by
  induction l with
  | nil => intro s hs; exact hs
  | cons a t ih =>
    intro s hs
    rw [List.foldl_cons]
    exact ih _ (consistent_commit a _ hs)

theorem foldl_tick_appendOnly (draws : String → ℚ) (l : List String) :
    ∀ (s : StockState), AppendOnly s (l.foldl (tick_step draws) s) := by
  induction l with
  | nil => intro s; exact appendOnly_refl s
  | cons a t ih =>
    intro s
    rw [List.foldl_cons]
    exact appendOnly_trans (appendOnly_commit s a _) (ih _)

theorem foldl_tick_history_bound (draws : String → ℚ) (l : List String) :
    ∀ (s : StockState) (symbol : String) (p : ℚ),
      p ∈ (l.foldl (tick_step draws) s).history symbol →
        p ∈ s.history symbol ∨ 1 ≤ p := by
  induction l with
  | nil => intro s symbol p h; exact Or.inl h
  | cons a t ih =>
    intro s symbol p h
    rw [List.foldl_cons] at h
    rcases ih (tick_step draws s a) symbol p h with hmem | hge
    · by_cases hsa : symbol = a
      · subst hsa
        rw [tick_step_eq, commit_history_self] at hmem
        rcases List.mem_append.mp hmem with hold | hnew
        · exact Or.inl hold
        · refine Or.inr ?_
          rw [List.mem_singleton.mp hnew]
          exact one_le_round2 _ (le_max_left 1 _)
      · rw [tick_step_eq, commit_history_other _ _ _ _ hsa] at hmem
        exact Or.inl hmem
    · exact Or.inr hge

/-! Facts about the `apply_stock_decay` loop. -/

theorem decay_step_eq (percent : ℚ) (acc : List String × StockState)
    (p : String × ℚ) (h : p.1 ∈ acc.2.symbols) :
    decay_step percent acc p
      = (acc.1 ++ [p.1],
         commit acc.2 p.1
           (round2 (max (1/100) (acc.2.prices p.1 * (1 - percent / 100))))) := by
  simp [decay_step, h]

theorem decay_foldl_symbols (percent : ℚ) (l : List (String × ℚ)) :
    ∀ acc, ((l.foldl (decay_step percent) acc).2).symbols = acc.2.symbols := by
  induction l with
  | nil => intro acc; rfl
  | cons p t ih =>
    intro acc
    rw [List.foldl_cons, ih]
    by_cases h : p.1 ∈ acc.2.symbols
    · simp [decay_step, h, commit]
    · simp [decay_step, h]

theorem decay_foldl_decayed (percent : ℚ) (l : List (String × ℚ)) :
    ∀ acc, (∀ p ∈ l, p.1 ∈ acc.2.symbols) →
      (l.foldl (decay_step percent) acc).1 = acc.1 ++ l.map Prod.fst := by
  induction l with
  | nil => intro acc _; simp
  | cons p t ih =>
    intro acc hall
    have hp : p.1 ∈ acc.2.symbols := hall p (List.mem_cons_self p t)
    rw [List.foldl_cons, decay_step_eq percent acc p hp,
      ih _ (fun q hq => by
        rw [commit_symbols]
        exact hall q (List.mem_cons_of_mem p hq))]
    simp

theorem decay_foldl_untouched (percent : ℚ) (l : List (String × ℚ)) :
    ∀ acc (symbol : String), symbol ∉ l.map Prod.fst →
      ((l.foldl (decay_step percent) acc).2).prices symbol = acc.2.prices symbol ∧
      ((l.foldl (decay_step percent) acc).2).history symbol = acc.2.history symbol := by
  induction l with
  | nil => intro acc symbol _; exact ⟨rfl, rfl⟩
  | cons p t ih =>
    intro acc symbol h
    rw [List.map_cons] at h
    have hne : symbol ≠ p.1 := fun hh => h (hh ▸ List.mem_cons_self _ _)
    have hnt : symbol ∉ t.map Prod.fst := fun hh => h (List.mem_cons_of_mem _ hh)
    rw [List.foldl_cons]
    by_cases hp : p.1 ∈ acc.2.symbols
    · rw [decay_step_eq percent acc p hp]
      obtain ⟨hup, huh⟩ := ih _ symbol hnt
      exact ⟨by rw [hup]; exact commit_prices_other _ _ _ _ hne,
             by rw [huh]; exact commit_history_other _ _ _ _ hne⟩
    · have hid : decay_step percent acc p = acc := by simp [decay_step, hp]
      rw [hid]
      exact ih acc symbol hnt

theorem decay_foldl_spec (percent : ℚ) (l : List (String × ℚ))
    (hl : (l.map Prod.fst).Nodup) :
    ∀ acc, (∀ q ∈ l, q.1 ∈ acc.2.symbols) → ∀ p ∈ l,
      ((l.foldl (decay_step percent) acc).2).prices p.1
          = round2 (max (1/100) (acc.2.prices p.1 * (1 - percent / 100))) ∧
      ((l.foldl (decay_step percent) acc).2).history p.1
          = acc.2.history p.1
              ++ [round2 (max (1/100) (acc.2.prices p.1 * (1 - percent / 100)))] := by
  induction l with
  | nil => intro acc _ p hp; exact absurd hp (List.not_mem_nil p)
  | cons q t ih =>
    intro acc hall p hp
    have hq : q.1 ∈ acc.2.symbols := hall q (List.mem_cons_self q t)
    rw [List.map_cons, List.nodup_cons] at hl
    rw [List.foldl_cons, decay_step_eq percent acc q hq]
    rcases List.mem_cons.mp hp with rfl | hmem
    · obtain ⟨hup, huh⟩ := decay_foldl_untouched percent t _ p.1 hl.1
      refine ⟨?_, ?_⟩
      · rw [hup]
        exact commit_prices_self _ _ _
      · rw [huh]
        exact commit_history_self _ _ _
    · have hne : p.1 ≠ q.1 := fun hh =>
        hl.1 (hh ▸ List.mem_map_of_mem Prod.fst hmem)
      obtain ⟨hup, huh⟩ := ih hl.2
        (acc.1 ++ [q.1],
         commit acc.2 q.1
           (round2 (max (1/100) (acc.2.prices q.1 * (1 - percent / 100)))))
        (fun r hr => by
          rw [commit_symbols]
          exact hall r (List.mem_cons_of_mem q hr)) p hmem
      refine ⟨?_, ?_⟩
      · rw [hup, commit_prices_other _ _ _ _ hne]
      · rw [huh, commit_prices_other _ _ _ _ hne, commit_history_other _ _ _ _ hne]

theorem decay_foldl_consistent (percent : ℚ) (l : List (String × ℚ)) :
    ∀ acc, Consistent acc.2 → Consistent ((l.foldl (decay_step percent) acc).2) := by
  induction l with
  | nil => intro acc h; exact h
  | cons p t ih =>
    intro acc h
    rw [List.foldl_cons]
    by_cases hp : p.1 ∈ acc.2.symbols
    · rw [decay_step_eq percent acc p hp]
      exact ih _ (consistent_commit _ _ h)
    · have hid : decay_step percent acc p = acc := by simp [decay_step, hp]
      rw [hid]
      exact ih acc h

theorem decay_foldl_appendOnly (percent : ℚ) (l : List (String × ℚ)) :
    ∀ acc, AppendOnly acc.2 ((l.foldl (decay_step percent) acc).2) := by
  induction l with
  | nil => intro acc; exact appendOnly_refl _
  | cons p t ih =>
    intro acc
    rw [List.foldl_cons]
    by_cases hp : p.1 ∈ acc.2.symbols
    · rw [decay_step_eq percent acc p hp]
      exact appendOnly_trans (appendOnly_commit _ _ _) (ih _)
    · have hid : decay_step percent acc p = acc := by simp [decay_step, hp]
      rw [hid]
      exact ih acc

/-! General facts about the configuration and the decay helpers. -/

theorem stock_symbols_nodup : STOCK_SYMBOLS.Nodup := by decide

theorem apply_stock_decay_of_le (threshold : ℕ) (percent : ℚ) (ud : UserData)
    (s : StockState) (h : s.symbols.length ≤ threshold) :
    apply_stock_decay threshold percent ud s = ([], s) := by
  simp [apply_stock_decay, get_all_symbols, h]

theorem apply_stock_decay_of_gt (threshold : ℕ) (percent : ℚ) (ud : UserData)
    (s : StockState) (h : ¬ s.symbols.length ≤ threshold) :
    apply_stock_decay threshold percent ud s
      = ((sorted_by_popularity ud s.symbols).take (s.symbols.length - threshold)).foldl
          (decay_step percent) ([], s) := by
  simp [apply_stock_decay, get_all_symbols, h]

theorem mem_calculate_stock_popularity (ud : UserData) (syms : List String)
    (p : String × ℚ) (h : p ∈ calculate_stock_popularity ud syms) :
    p.1 ∈ syms ∧ p.2 = popularity_score ud p.1 := by
  obtain ⟨a, ha, rfl⟩ := List.mem_map.mp h
  exact ⟨ha, rfl⟩

theorem sorted_by_popularity_perm (ud : UserData) (syms : List String) :
    (sorted_by_popularity ud syms).Perm (calculate_stock_popularity ud syms) :=
  List.mergeSort_perm _ score_le

theorem mem_sorted_by_popularity (ud : UserData) (syms : List String)
    (p : String × ℚ) (h : p ∈ sorted_by_popularity ud syms) :
    p.1 ∈ syms ∧ p.2 = popularity_score ud p.1 :=
  mem_calculate_stock_popularity ud syms p
    ((sorted_by_popularity_perm ud syms).mem_iff.mp h)

theorem sorted_by_popularity_pairwise (ud : UserData) (syms : List String) :
    (sorted_by_popularity ud syms).Pairwise (fun a b => a.2 ≤ b.2) := by
  have htrans : ∀ a b c : String × ℚ,
      score_le a b = true → score_le b c = true → score_le a c = true := by
    intro a b c hab hbc
    simp only [score_le, decide_eq_true_eq] at *
    exact le_trans hab hbc
  have htotal : ∀ a b : String × ℚ, (score_le a b || score_le b a) = true := by
    intro a b
    simp only [score_le, Bool.or_eq_true, decide_eq_true_eq]
    exact le_total a.2 b.2
  have hs := List.sorted_mergeSort htrans htotal (calculate_stock_popularity ud syms)
  exact hs.imp (by intro a b h; simpa [score_le, decide_eq_true_eq] using h)

theorem sorted_by_popularity_length (ud : UserData) (syms : List String) :
    (sorted_by_popularity ud syms).length = syms.length := by
  rw [(sorted_by_popularity_perm ud syms).length_eq, calculate_stock_popularity,
    List.length_map]

theorem map_fst_calculate_stock_popularity (ud : UserData) (syms : List String) :
    (calculate_stock_popularity ud syms).map Prod.fst = syms := by
  rw [calculate_stock_popularity, List.map_map]
  have hm : List.map (Prod.fst ∘ fun symbol => (symbol, popularity_score ud symbol)) syms
      = List.map id syms := List.map_congr_left (fun a _ => rfl)
  rw [hm, List.map_id]

/-- C3: for every listed symbol a sell returns
`executedPrice = currentPrice - SELLING_FEE`, while the committed new price
is `round2` of the pre-fee current price minus the drawn delta, floored at
the hard-coded price floor 1.  In the spec's scenario (price 50.00, fee 7,
delta 5) the payout is 43.00 and the new listed price 45.00, so the payout
need not equal the new listed price. -/
theorem sell_payout_vs_listed_price :
    (∀ (change : ℚ) (s : StockState) (symbol : String),
      (sell_stock change s symbol).1 = s.prices symbol - SELLING_FEE
      ∧ (sell_stock change s symbol).2.prices symbol
          = round2 (max 1 (s.prices symbol - change))
      ∧ (sell_stock change s symbol).2.history symbol
          = s.history symbol ++ [round2 (max 1 (s.prices symbol - change))])
    ∧ (sell_stock 5 demo_state "$GAGE").1 = 43
    ∧ (sell_stock 5 demo_state "$GAGE").2.prices "$GAGE" = 45
    ∧ (sell_stock 5 demo_state "$GAGE").1
        ≠ (sell_stock 5 demo_state "$GAGE").2.prices "$GAGE" := by
  have hgen : ∀ (change : ℚ) (s : StockState) (symbol : String),
      (sell_stock change s symbol).1 = s.prices symbol - SELLING_FEE
      ∧ (sell_stock change s symbol).2.prices symbol
          = round2 (max 1 (s.prices symbol - change))
      ∧ (sell_stock change s symbol).2.history symbol
          = s.history symbol ++ [round2 (max 1 (s.prices symbol - change))] :=
    fun change s symbol =>
      ⟨rfl, commit_prices_self _ _ _, commit_history_self _ _ _⟩
  have h1 : (sell_stock 5 demo_state "$GAGE").1 = 43 := by
    rw [(hgen 5 demo_state "$GAGE").1]
    norm_num [demo_state, SELLING_FEE]
  have h2 : (sell_stock 5 demo_state "$GAGE").2.prices "$GAGE" = 45 := by
    rw [(hgen 5 demo_state "$GAGE").2.1]
    have hm : max (1 : ℚ) (demo_state.prices "$GAGE" - 5) = 45 := by
      norm_num [demo_state]
    rw [hm]
    exact_mod_cast round2_intCast 45
  exact ⟨hgen, h1, h2, by rw [h1, h2]; norm_num⟩

/-- C7: when the listing count is at or below the decay threshold, both the
decay pass and the risk preview return an empty result and the state is
completely unchanged. -/
theorem decay_noop_when_at_or_below_threshold (threshold : ℕ) (percent : ℚ)
    (ud : UserData) (s : StockState) (h : s.symbols.length ≤ threshold) :
    apply_stock_decay threshold percent ud s = ([], s)
    ∧ get_decay_risk_stocks threshold ud s = [] := by
  refine ⟨apply_stock_decay_of_le threshold percent ud s h, ?_⟩
  simp [get_decay_risk_stocks, get_all_symbols, h]

/-- Witness for C7: threshold 5, one listed symbol. -/
theorem decay_noop_witness :
    demo_state.symbols.length ≤ 5
    ∧ apply_stock_decay 5 50 demo_user_data demo_state = ([], demo_state) := by
  have h : demo_state.symbols.length ≤ 5 := by norm_num [demo_state]
  exact ⟨h, (decay_noop_when_at_or_below_threshold 5 50 demo_user_data demo_state h).1⟩

/-- C10: the sell payout `currentPrice - SELLING_FEE` has no lower bound;
whenever the current price is below the flat fee the returned executed
price is negative, and `ChartView.sell_stock` credits exactly that negative
amount to the seller's balance. -/
theorem sell_payout_no_lower_bound :
    (∀ (change : ℚ) (s : StockState) (symbol : String),
      (sell_stock change s symbol).1 = s.prices symbol - SELLING_FEE)
    ∧ (∀ (change : ℚ) (s : StockState) (symbol : String),
        s.prices symbol < SELLING_FEE → (sell_stock change s symbol).1 < 0)
    ∧ (∀ (change balance : ℚ) (s : StockState) (symbol : String),
        (chart_sell true change balance s symbol).1
          = balance + (s.prices symbol - SELLING_FEE))
    ∧ ∀ b : ℚ, ∃ s : StockState, ∀ (change : ℚ) (symbol : String),
        (sell_stock change s symbol).1 < b := by
  refine ⟨fun _ _ _ => rfl, ?_, ?_, ?_⟩
  · intro change s symbol h
    have heq : (sell_stock change s symbol).1 = s.prices symbol - SELLING_FEE := rfl
    rw [heq]
    linarith
  · intro change balance s symbol
    rfl
  · intro b
    refine ⟨{ symbols := [], prices := fun _ => b - 8, history := fun _ => [] }, ?_⟩
    intro change symbol
    have heq : (sell_stock change
        { symbols := [], prices := fun _ => b - 8, history := fun _ => [] }
        symbol).1 = b - 8 - SELLING_FEE := rfl
    rw [heq]
    simp only [SELLING_FEE]
    linarith

/-- Witness for C10: at price 3.00 (below the fee 7) the payout is negative
and is what gets added to the balance. -/
theorem sell_payout_no_lower_bound_witness :
    cheap_state.prices "$GAGE" < SELLING_FEE
    ∧ (sell_stock 5 cheap_state "$GAGE").1 < 0
    ∧ (chart_sell true 5 10 cheap_state "$GAGE").1
        = 10 + (cheap_state.prices "$GAGE" - SELLING_FEE) := by
  have h : cheap_state.prices "$GAGE" < SELLING_FEE := by
    norm_num [cheap_state, SELLING_FEE]
  exact ⟨h, sell_payout_no_lower_bound.2.1 5 cheap_state "$GAGE" h,
    sell_payout_no_lower_bound.2.2.1 5 10 cheap_state "$GAGE"⟩

/-- C4: a single tick updates every live symbol (the `config.STOCK_SYMBOLS`
the loop iterates over) in one pass: with each symbol's delta drawn in
`[STOCK_PRICE_MIN_CHANGE, STOCK_PRICE_MAX_CHANGE]`, the new price is
`round2 (max 1 (currentPrice + delta))` — the price floor is the hard-coded
1 — and that value is committed to both the price store and the history. -/
theorem tick_updates_every_symbol (draws : String → ℚ) (s : StockState)
    (hd : ∀ symbol, STOCK_PRICE_MIN_CHANGE ≤ draws symbol
        ∧ draws symbol ≤ STOCK_PRICE_MAX_CHANGE) :
    ∀ symbol ∈ STOCK_SYMBOLS,
      (update_prices draws s).prices symbol
          = round2 (max 1 (s.prices symbol + draws symbol))
      ∧ (update_prices draws s).history symbol
          = s.history symbol ++ [round2 (max 1 (s.prices symbol + draws symbol))] :=
  fun symbol hmem =>
    foldl_tick_spec draws STOCK_SYMBOLS stock_symbols_nodup s symbol hmem

/-- Witness for C4: constant +2 draws on the all-50 demo state, read back at
symbol `$GAGE`. -/
theorem tick_updates_every_symbol_witness :
    (∀ symbol, STOCK_PRICE_MIN_CHANGE ≤ demo_draws symbol
        ∧ demo_draws symbol ≤ STOCK_PRICE_MAX_CHANGE)
    ∧ (update_prices demo_draws demo_state).prices "$GAGE"
        = round2 (max 1 (demo_state.prices "$GAGE" + demo_draws "$GAGE")) := by
  have hd : ∀ symbol : String, STOCK_PRICE_MIN_CHANGE ≤ demo_draws symbol
      ∧ demo_draws symbol ≤ STOCK_PRICE_MAX_CHANGE := by
    intro symbol
    constructor <;>
      norm_num [demo_draws, STOCK_PRICE_MIN_CHANGE, STOCK_PRICE_MAX_CHANGE]
  exact ⟨hd,
    (tick_updates_every_symbol demo_draws demo_state hd "$GAGE" (by decide)).1⟩

/-- C5: no tick ever commits a price below the floor (the hard-coded 1 of
`max(1, ...)`), and no sell ever commits a post-delta price below that
floor: every updated stored price is ≥ 1 and every history entry that was
not already present is ≥ 1, for every symbol and every draw. -/
theorem committed_prices_respect_floor (draws : String → ℚ) (change : ℚ)
    (s : StockState) (symbol' : String) :
    (∀ symbol ∈ STOCK_SYMBOLS, 1 ≤ (update_prices draws s).prices symbol)
    ∧ (∀ (symbol : String) (p : ℚ),
        p ∈ (update_prices draws s).history symbol → p ∈ s.history symbol ∨ 1 ≤ p)
    ∧ 1 ≤ (sell_stock change s symbol').2.prices symbol'
    ∧ (∀ (symbol : String) (p : ℚ),
        p ∈ (sell_stock change s symbol').2.history symbol →
          p ∈ s.history symbol ∨ 1 ≤ p) := by
  refine ⟨?_, ?_, ?_, ?_⟩
  · intro symbol hmem
    have heq : (update_prices draws s).prices symbol
        = round2 (max 1 (s.prices symbol + draws symbol)) :=
      (foldl_tick_spec draws STOCK_SYMBOLS stock_symbols_nodup s symbol hmem).1
    rw [heq]
    exact one_le_round2 _ (le_max_left _ _)
  · intro symbol p hp
    exact foldl_tick_history_bound draws STOCK_SYMBOLS s symbol p hp
  · have heq : (sell_stock change s symbol').2.prices symbol'
        = round2 (max 1 (s.prices symbol' - change)) := commit_prices_self _ _ _
    rw [heq]
    exact one_le_round2 _ (le_max_left _ _)
  · intro symbol p hp
    by_cases h : symbol = symbol'
    · subst h
      have heq : (sell_stock change s symbol).2.history symbol
          = s.history symbol ++ [round2 (max 1 (s.prices symbol - change))] :=
        commit_history_self _ _ _
      rw [heq] at hp
      rcases List.mem_append.mp hp with hold | hnew
      · exact Or.inl hold
      · refine Or.inr ?_
        rw [List.mem_singleton.mp hnew]
        exact one_le_round2 _ (le_max_left _ _)
    · have heq : (sell_stock change s symbol').2.history symbol
          = s.history symbol := commit_history_other _ _ _ _ h
      rw [heq] at hp
      exact Or.inl hp

/-- Witness for C5: the tick conclusion read back at `$GAGE` on the demo
state. -/
theorem committed_prices_respect_floor_witness :
    ("$GAGE" ∈ STOCK_SYMBOLS)
    ∧ 1 ≤ (update_prices demo_draws demo_state).prices "$GAGE"
    ∧ 1 ≤ (sell_stock 5 demo_state "$GAGE").2.prices "$GAGE" := by
  have hmem : "$GAGE" ∈ STOCK_SYMBOLS := by decide
  exact ⟨hmem,
    (committed_prices_respect_floor demo_draws 5 demo_state "$GAGE").1 "$GAGE" hmem,
    (committed_prices_respect_floor demo_draws 5 demo_state "$GAGE").2.2.1⟩

/-- C1: starting from a state where every listed symbol's current price is
the last element of its history, each price-mutating operation —
`update_prices` (tick), `buy_stock`, `sell_stock`, `apply_stock_decay` and
the admin price adjustments — reestablishes that invariant and only ever
appends to every history. -/
theorem price_equals_last_history (s : StockState) (hs : Consistent s)
    (draws : String → ℚ) (ch1 ch2 amt1 amt2 : ℚ) (sym1 sym2 sym3 sym4 : String)
    (threshold : ℕ) (percent : ℚ) (ud : UserData) :
    (Consistent (update_prices draws s) ∧ AppendOnly s (update_prices draws s))
    ∧ (Consistent (buy_stock ch1 s sym1).2 ∧ AppendOnly s (buy_stock ch1 s sym1).2)
    ∧ (Consistent (sell_stock ch2 s sym2).2 ∧ AppendOnly s (sell_stock ch2 s sym2).2)
    ∧ (Consistent (apply_stock_decay threshold percent ud s).2
        ∧ AppendOnly s (apply_stock_decay threshold percent ud s).2)
    ∧ (∀ s', admin_add s sym3 amt1 = some s' → Consistent s' ∧ AppendOnly s s')
    ∧ (∀ s', admin_sub s sym4 amt2 = some s' → Consistent s' ∧ AppendOnly s s') := by
  refine ⟨⟨?_, ?_⟩, ⟨?_, ?_⟩, ⟨?_, ?_⟩, ⟨?_, ?_⟩, ?_, ?_⟩
  · exact foldl_tick_consistent draws STOCK_SYMBOLS s hs
  · exact foldl_tick_appendOnly draws STOCK_SYMBOLS s
  · exact consistent_commit _ _ hs
  · exact appendOnly_commit _ _ _
  · exact consistent_commit _ _ hs
  · exact appendOnly_commit _ _ _
  · by_cases h : s.symbols.length ≤ threshold
    · rw [apply_stock_decay_of_le threshold percent ud s h]
      exact hs
    · rw [apply_stock_decay_of_gt threshold percent ud s h]
      exact decay_foldl_consistent percent _ ([], s) hs
  · by_cases h : s.symbols.length ≤ threshold
    · rw [apply_stock_decay_of_le threshold percent ud s h]
      exact appendOnly_refl s
    · rw [apply_stock_decay_of_gt threshold percent ud s h]
      exact decay_foldl_appendOnly percent _ ([], s)
  · intro s' h
    simp only [admin_add] at h
    split_ifs at h
    rw [Option.some.injEq] at h
    rw [← h]
    exact ⟨consistent_commit _ _ hs, appendOnly_commit _ _ _⟩
  · intro s' h
    simp only [admin_sub] at h
    split_ifs at h
    rw [Option.some.injEq] at h
    rw [← h]
    exact ⟨consistent_commit _ _ hs, appendOnly_commit _ _ _⟩

/-- Witness for C1: the demo state is consistent and stays so after a tick
and after a sell. -/
theorem price_equals_last_history_witness :
    Consistent demo_state
    ∧ Consistent (update_prices demo_draws demo_state)
    ∧ Consistent (sell_stock 5 demo_state "$GAGE").2 := by
  have hs : Consistent demo_state := fun symbol _ => rfl
  have hall := price_equals_last_history demo_state hs demo_draws 4 5 2 2
    "$GAGE" "$GAGE" "$GAGE" "$GAGE" 5 50 demo_user_data
  exact ⟨hs, hall.1.1, hall.2.2.1.1⟩

/-- C9: loading from a missing, unreadable or corrupt snapshot (any
`readError` or `badShape` outcome) is total — it falls back to
`generate_new_stocks`, in which every configured symbol's price is the
2-decimal rounding of a draw from
`[NEW_STOCK_MIN_PRICE, NEW_STOCK_MAX_PRICE]`, still inside that band, and
every history is exactly the one-element list holding that price. -/
theorem load_stocks_regenerates (input : LoadResult) (draws : String → ℚ)
    (hin : input = LoadResult.readError ∨ input = LoadResult.badShape)
    (hd : ∀ symbol, NEW_STOCK_MIN_PRICE ≤ draws symbol
        ∧ draws symbol ≤ NEW_STOCK_MAX_PRICE) :
    load_stocks input draws = generate_new_stocks draws
    ∧ (load_stocks input draws).symbols = STOCK_SYMBOLS
    ∧ ∀ symbol,
        (load_stocks input draws).prices symbol = round2 (draws symbol)
        ∧ NEW_STOCK_MIN_PRICE ≤ (load_stocks input draws).prices symbol
        ∧ (load_stocks input draws).prices symbol ≤ NEW_STOCK_MAX_PRICE
        ∧ (load_stocks input draws).history symbol
            = [(load_stocks input draws).prices symbol] := by
  have heq : load_stocks input draws = generate_new_stocks draws := by
    rcases hin with rfl | rfl <;> rfl
  refine ⟨heq, by rw [heq]; rfl, ?_⟩
  intro symbol
  rw [heq]
  have hlo : NEW_STOCK_MIN_PRICE ≤ round2 (draws symbol) := by
    have h80 : ((8000 : ℤ) : ℚ) / 100 ≤ draws symbol := by
      have := (hd symbol).1
      simp only [NEW_STOCK_MIN_PRICE] at this
      push_cast
      linarith
    have := div_le_round2 8000 (draws symbol) h80
    simp only [NEW_STOCK_MIN_PRICE]
    push_cast at this
    linarith
  have hhi : round2 (draws symbol) ≤ NEW_STOCK_MAX_PRICE := by
    have h90 : draws symbol ≤ ((9000 : ℤ) : ℚ) / 100 := by
      have := (hd symbol).2
      simp only [NEW_STOCK_MAX_PRICE] at this
      push_cast
      linarith
    have := round2_le_div 9000 (draws symbol) h90
    simp only [NEW_STOCK_MAX_PRICE]
    push_cast at this
    linarith
  exact ⟨rfl, hlo, hhi, rfl⟩

/-- Witness for C9: a read error with every draw at 85. -/
theorem load_stocks_regenerates_witness :
    (LoadResult.readError = LoadResult.readError ∨
      LoadResult.readError = LoadResult.badShape)
    ∧ (∀ symbol, NEW_STOCK_MIN_PRICE ≤ ipo_draws symbol
        ∧ ipo_draws symbol ≤ NEW_STOCK_MAX_PRICE)
    ∧ load_stocks LoadResult.readError ipo_draws = generate_new_stocks ipo_draws
    ∧ (load_stocks LoadResult.readError ipo_draws).symbols = STOCK_SYMBOLS := by
  have hd : ∀ symbol : String, NEW_STOCK_MIN_PRICE ≤ ipo_draws symbol
      ∧ ipo_draws symbol ≤ NEW_STOCK_MAX_PRICE := by
    intro symbol
    constructor <;> norm_num [ipo_draws, NEW_STOCK_MIN_PRICE, NEW_STOCK_MAX_PRICE]
  have hall := load_stocks_regenerates LoadResult.readError ipo_draws (Or.inl rfl) hd
  exact ⟨Or.inl rfl, hd, hall.1, hall.2.1⟩

/-- C2: when the listing count exceeds the threshold the decay pass selects
exactly `min(excess, total)` symbols, all listed, and every selected symbol
has popularity score — total shares held plus the character tie-break term
— no greater than every unselected listed symbol's; and the selection is a
pure function of the holdings data and the state, so re-running it yields
the same result. -/
theorem decay_selects_least_popular (threshold : ℕ) (percent : ℚ)
    (ud : UserData) (s : StockState) (h : threshold < s.symbols.length) :
    (apply_stock_decay threshold percent ud s).1.length
        = min (s.symbols.length - threshold) s.symbols.length
    ∧ (∀ x ∈ (apply_stock_decay threshold percent ud s).1, x ∈ s.symbols)
    ∧ (∀ x ∈ (apply_stock_decay threshold percent ud s).1,
        ∀ y ∈ s.symbols, y ∉ (apply_stock_decay threshold percent ud s).1 →
          popularity_score ud x ≤ popularity_score ud y)
    ∧ apply_stock_decay threshold percent ud s
        = apply_stock_decay threshold percent ud s := by
  have hn : ¬ s.symbols.length ≤ threshold := not_le.mpr h
  have happ := apply_stock_decay_of_gt threshold percent ud s hn
  have hmemT : ∀ p ∈ (sorted_by_popularity ud s.symbols).take
      (s.symbols.length - threshold), p.1 ∈ s.symbols := by
    intro p hp
    exact (mem_sorted_by_popularity ud s.symbols p
      ((List.take_sublist _ _).mem hp)).1
  have hfold : (apply_stock_decay threshold percent ud s).1
      = ((sorted_by_popularity ud s.symbols).take
          (s.symbols.length - threshold)).map Prod.fst := by
    rw [happ, decay_foldl_decayed percent _ ([], s) hmemT]
    exact List.nil_append _
  have hLlen : (sorted_by_popularity ud s.symbols).length = s.symbols.length :=
    sorted_by_popularity_length ud s.symbols
  refine ⟨?_, ?_, ?_, rfl⟩
  · rw [hfold, List.length_map, List.length_take, hLlen]
  · intro x hx
    rw [hfold] at hx
    obtain ⟨p, hpT, rfl⟩ := List.mem_map.mp hx
    exact hmemT p hpT
  · intro x hx y hy hyn
    rw [hfold] at hx hyn
    obtain ⟨px, hpxT, rfl⟩ := List.mem_map.mp hx
    have hpxL : px ∈ sorted_by_popularity ud s.symbols :=
      (List.take_sublist _ _).mem hpxT
    have hpx2 : px.2 = popularity_score ud px.1 :=
      (mem_sorted_by_popularity ud s.symbols px hpxL).2
    have hpyL : (y, popularity_score ud y) ∈ sorted_by_popularity ud s.symbols :=
      (sorted_by_popularity_perm ud s.symbols).mem_iff.mpr
        (List.mem_map.mpr ⟨y, hy, rfl⟩)
    have hTD : (sorted_by_popularity ud s.symbols).take (s.symbols.length - threshold)
        ++ (sorted_by_popularity ud s.symbols).drop (s.symbols.length - threshold)
        = sorted_by_popularity ud s.symbols := List.take_append_drop _ _
    have hpyD : (y, popularity_score ud y)
        ∈ (sorted_by_popularity ud s.symbols).drop (s.symbols.length - threshold) := by
      rw [← hTD] at hpyL
      rcases List.mem_append.mp hpyL with hin | hin
      · exact absurd (List.mem_map_of_mem Prod.fst hin) hyn
      · exact hin
    have hpw := sorted_by_popularity_pairwise ud s.symbols
    rw [← hTD] at hpw
    have h3 := (List.pairwise_append.mp hpw).2.2 px hpxT _ hpyD
    rw [hpx2] at h3
    exact h3

/-- Witness for C2: threshold 1 on a three-symbol state with one holder. -/
theorem decay_selects_least_popular_witness :
    1 < trio_state.symbols.length
    ∧ (apply_stock_decay 1 50 demo_user_data trio_state).1.length
        = min (trio_state.symbols.length - 1) trio_state.symbols.length := by
  have h : 1 < trio_state.symbols.length := by norm_num [trio_state]
  exact ⟨h, (decay_selects_least_popular 1 50 demo_user_data trio_state h).1⟩

/-- C8: for every symbol the decay pass selects, it commits
`round2 (max (1/100) (currentPrice * (1 - percent/100)))` to the price
store and appends the same value to the history; the listing set is never
changed by the decay pass itself (a symbol at or below the bankruptcy
threshold is only logged, not removed). -/
theorem decay_price_formula (threshold : ℕ) (percent : ℚ) (ud : UserData)
    (s : StockState) (hnd : s.symbols.Nodup) :
    (apply_stock_decay threshold percent ud s).2.symbols = s.symbols
    ∧ ∀ symbol ∈ (apply_stock_decay threshold percent ud s).1,
        (apply_stock_decay threshold percent ud s).2.prices symbol
            = round2 (max (1/100) (s.prices symbol * (1 - percent / 100)))
        ∧ (apply_stock_decay threshold percent ud s).2.history symbol
            = s.history symbol
                ++ [round2 (max (1/100) (s.prices symbol * (1 - percent / 100)))] := by
  by_cases h : s.symbols.length ≤ threshold
  · rw [apply_stock_decay_of_le threshold percent ud s h]
    exact ⟨rfl, fun symbol hmem => absurd hmem (List.not_mem_nil symbol)⟩
  · have happ := apply_stock_decay_of_gt threshold percent ud s h
    have hfstL : ((sorted_by_popularity ud s.symbols).map Prod.fst).Perm s.symbols := by
      have hp := (sorted_by_popularity_perm ud s.symbols).map Prod.fst
      rwa [map_fst_calculate_stock_popularity] at hp
    have hndL : ((sorted_by_popularity ud s.symbols).map Prod.fst).Nodup :=
      hfstL.nodup_iff.mpr hnd
    have hndT : (((sorted_by_popularity ud s.symbols).take
        (s.symbols.length - threshold)).map Prod.fst).Nodup := by
      rw [List.map_take]
      exact List.Nodup.sublist (List.take_sublist _ _) hndL
    have hmemT : ∀ p ∈ (sorted_by_popularity ud s.symbols).take
        (s.symbols.length - threshold), p.1 ∈ s.symbols := by
      intro p hp
      exact (mem_sorted_by_popularity ud s.symbols p
        ((List.take_sublist _ _).mem hp)).1
    have hsel : (apply_stock_decay threshold percent ud s).1
        = ((sorted_by_popularity ud s.symbols).take
            (s.symbols.length - threshold)).map Prod.fst := by
      rw [happ, decay_foldl_decayed percent _ ([], s) hmemT]
      exact List.nil_append _
    refine ⟨?_, ?_⟩
    · rw [happ, decay_foldl_symbols]
    · intro symbol hmem
      rw [hsel] at hmem
      obtain ⟨p, hpT, rfl⟩ := List.mem_map.mp hmem
      have hspec := decay_foldl_spec percent _ hndT ([], s) hmemT p hpT
      rw [happ]
      exact hspec

/-- Witness for C8: the three-symbol state with threshold 1. -/
theorem decay_price_formula_witness :
    trio_state.symbols.Nodup
    ∧ (apply_stock_decay 1 50 demo_user_data trio_state).2.symbols
        = trio_state.symbols := by
  have hnd : trio_state.symbols.Nodup := by decide
  exact ⟨hnd, (decay_price_formula 1 50 demo_user_data trio_state hnd).1⟩

/-- C6: when the count exceeds the threshold, the read-only risk preview
returns exactly `excess + min 3 threshold` entries in ascending popularity
order; each of the first `excess` entries carries risk 100, and each buffer
entry at offset `bp` carries `100 - bp * 75 / buffer` — the line from 100
down to 25 — so every risk lies in `(25, 100]`.  The function reads the
state and returns only this list: it mutates nothing by construction. -/
theorem decay_risk_preview (threshold : ℕ) (ud : UserData) (s : StockState)
    (h : threshold < s.symbols.length) :
    (get_decay_risk_stocks threshold ud s).length
        = (s.symbols.length - threshold) + min 3 threshold
    ∧ (∀ (i : ℕ) (hi : i < (get_decay_risk_stocks threshold ud s).length),
        ((get_decay_risk_stocks threshold ud s)[i].2
            = if i < s.symbols.length - threshold then (100 : ℚ)
              else 100 - ((i - (s.symbols.length - threshold) : ℕ) : ℚ) * 75
                  / ((min 3 threshold : ℕ) : ℚ))
        ∧ 25 < (get_decay_risk_stocks threshold ud s)[i].2
        ∧ (get_decay_risk_stocks threshold ud s)[i].2 ≤ 100)
    ∧ (∀ (i j : ℕ) (hi : i < (get_decay_risk_stocks threshold ud s).length)
        (hj : j < (get_decay_risk_stocks threshold ud s).length), i ≤ j →
          popularity_score ud ((get_decay_risk_stocks threshold ud s)[i].1)
            ≤ popularity_score ud ((get_decay_risk_stocks threshold ud s)[j].1)) := by
  have hn : ¬ s.symbols.length ≤ threshold := not_le.mpr h
  have hLlen := sorted_by_popularity_length ud s.symbols
  have hbuf : min 3 ((sorted_by_popularity ud s.symbols).length
      - (s.symbols.length - threshold)) = min 3 threshold := by
    rw [hLlen, Nat.sub_sub_self (le_of_lt h)]
  have hunfold : get_decay_risk_stocks threshold ud s
      = ((sorted_by_popularity ud s.symbols).take
            ((s.symbols.length - threshold) + min 3 threshold)).enum.map
          (fun ip =>
            (ip.2.1,
              if ip.1 < s.symbols.length - threshold then (100 : ℚ)
              else 100 - (if 0 < min 3 threshold then
                  ((ip.1 - (s.symbols.length - threshold) : ℕ) : ℚ) * 75
                    / ((min 3 threshold : ℕ) : ℚ)
                else 0))) := by
    simp only [get_decay_risk_stocks, get_all_symbols]
    rw [if_neg hn, hbuf]
  have hrc_le : (s.symbols.length - threshold) + min 3 threshold
      ≤ (sorted_by_popularity ud s.symbols).length := by
    rw [hLlen]
    have h1 : min 3 threshold ≤ threshold := min_le_right _ _
    omega
  have hlen : (get_decay_risk_stocks threshold ud s).length
      = (s.symbols.length - threshold) + min 3 threshold := by
    rw [hunfold, List.length_map, List.enum_length, List.length_take]
    exact min_eq_left hrc_le
  have hsnd : ∀ (k : ℕ) (hk : k < (get_decay_risk_stocks threshold ud s).length),
      (get_decay_risk_stocks threshold ud s)[k].2
        = if k < s.symbols.length - threshold then (100 : ℚ)
          else 100 - (if 0 < min 3 threshold then
              ((k - (s.symbols.length - threshold) : ℕ) : ℚ) * 75
                / ((min 3 threshold : ℕ) : ℚ)
            else 0) := by
    intro k hk
    simp only [hunfold, List.getElem_map, List.getElem_enum, List.getElem_take]
  have hfst : ∀ (k : ℕ) (hk : k < (get_decay_risk_stocks threshold ud s).length),
      (get_decay_risk_stocks threshold ud s)[k].1
        = ((sorted_by_popularity ud s.symbols).get
            ⟨k, lt_of_lt_of_le (hlen ▸ hk) hrc_le⟩).1 := by
    intro k hk
    simp only [hunfold, List.getElem_map, List.getElem_enum, List.getElem_take,
      List.get_eq_getElem]
  refine ⟨hlen, ?_, ?_⟩
  · intro i hi
    have hi' : i < (s.symbols.length - threshold) + min 3 threshold := hlen ▸ hi
    rcases lt_or_ge i (s.symbols.length - threshold) with hlt | hge
    · rw [hsnd i hi, if_pos hlt, if_pos hlt]
      norm_num
    · have hbufpos : 0 < min 3 threshold := by omega
      have hval : (get_decay_risk_stocks threshold ud s)[i].2
          = 100 - ((i - (s.symbols.length - threshold) : ℕ) : ℚ) * 75
              / ((min 3 threshold : ℕ) : ℚ) := by
        rw [hsnd i hi, if_neg (not_lt.mpr hge), if_pos hbufpos]
      have hm0 : (0 : ℚ) < ((min 3 threshold : ℕ) : ℚ) := by exact_mod_cast hbufpos
      have hbp : i - (s.symbols.length - threshold) < min 3 threshold := by omega
      have hbp1 : ((i - (s.symbols.length - threshold) : ℕ) : ℚ) + 1
          ≤ ((min 3 threshold : ℕ) : ℚ) := by exact_mod_cast hbp
      have hbp0 : (0 : ℚ) ≤ ((i - (s.symbols.length - threshold) : ℕ) : ℚ) := by
        positivity
      have hXlt : ((i - (s.symbols.length - threshold) : ℕ) : ℚ) * 75
          / ((min 3 threshold : ℕ) : ℚ) < 75 := by
        rw [div_lt_iff₀ hm0]
        linarith
      have hX0 : (0 : ℚ) ≤ ((i - (s.symbols.length - threshold) : ℕ) : ℚ) * 75
          / ((min 3 threshold : ℕ) : ℚ) := by positivity
      refine ⟨?_, ?_, ?_⟩
      · rw [hsnd i hi, if_neg (not_lt.mpr hge), if_pos hbufpos,
          if_neg (not_lt.mpr hge)]
      · rw [hval]; linarith
      · rw [hval]; linarith
  · intro i j hi hj hij
    rcases eq_or_lt_of_le hij with rfl | hlt
    · exact le_refl _
    · have hiL : i < (sorted_by_popularity ud s.symbols).length :=
        lt_of_lt_of_le (hlen ▸ hi) hrc_le
      have hjL : j < (sorted_by_popularity ud s.symbols).length :=
        lt_of_lt_of_le (hlen ▸ hj) hrc_le
      have hpw := sorted_by_popularity_pairwise ud s.symbols
      have hLij := (List.pairwise_iff_getElem.mp hpw) i j hiL hjL hlt
      have hsi := (mem_sorted_by_popularity ud s.symbols _ (List.getElem_mem hiL)).2
      have hsj := (mem_sorted_by_popularity ud s.symbols _ (List.getElem_mem hjL)).2
      rw [hfst i hi, hfst j hj]
      rw [hsi, hsj] at hLij
      exact hLij

/-- Witness for C6: threshold 1 on the three-symbol state. -/
theorem decay_risk_preview_witness :
    1 < trio_state.symbols.length
    ∧ (get_decay_risk_stocks 1 demo_user_data trio_state).length
        = (trio_state.symbols.length - 1) + min 3 1 := by
  have h : 1 < trio_state.symbols.length := by norm_num [trio_state]
  exact ⟨h, (decay_risk_preview 1 demo_user_data trio_state h).1⟩

end ChefExchange
